import Mathlib

/-!
Verification of the longest-match IP lookup structures of tutorial-01
(src/tutorial-01/src/ip_bin_trie.rs and src/tutorial-01/src/ip_bst.rs),
driven as in src/tutorial-01/src/main.rs.
-/

set_option maxHeartbeats 1000000

/-- A route triple as passed to both structures: a 32-bit value, a count of
significant leading bits, and a next-hop label. -/
structure Route where
  pfx : Nat
  len : Nat
  hop : String
  deriving DecidableEq

/-- The mask computed by BSTNode::matches in ip_bst.rs:
zero when the stored length is zero, otherwise the u32 value
of all-ones shifted left by 32 - prefix_len (truncated to 32 bits). -/
def mask32 (l : Nat) : Nat :=
  if l = 0 then 0 else ((2 ^ 32 - 1) <<< (32 - l)) % 2 ^ 32

/-- The TrieNode struct of ip_bin_trie.rs: optional children (left for a 0
bit, right for a 1 bit) and an optional stored next hop. -/
inductive TrieNode where
  | mk (left : Option TrieNode) (right : Option TrieNode) (next_hop : Option String)

def TrieNode.left : TrieNode → Option TrieNode
  | .mk l _ _ => l

def TrieNode.right : TrieNode → Option TrieNode
  | .mk _ r _ => r

def TrieNode.next_hop : TrieNode → Option String
  | .mk _ _ h => h

/-- The TrieNode::new constructor: both children absent, no hop. -/
def TrieNode.new : TrieNode := .mk none none none

/-- The bit sequence consumed by the TrieNode::insert loop
(for i in (32 - prefix_len..32).rev(), bit = (p >> i) & 1):
the bit at index 31 - j of p, for j below len. -/
def pathBits (p : Nat) (len : Nat) : List Bool :=
  (List.range len).map (fun j => p.testBit (31 - j))

/-- The 32 address bits walked by TrieNode::lookup
(for i in (0..32).rev()), most significant first. -/
def addrBits (a : Nat) : List Bool := pathBits a 32

/-- Loop body of TrieNode::insert: follow one bit per level (0 = left,
1 = right), creating an absent child on demand (get_or_insert_with), and
finally set next_hop on the node reached, overwriting any prior value. -/
def TrieNode.insertBits : TrieNode → List Bool → String → TrieNode
  | .mk l r _, [], hop => .mk l r (some hop)
  | .mk l r h, b :: bs, hop =>
    if b then .mk l (some (TrieNode.insertBits (r.getD TrieNode.new) bs hop)) h
    else .mk (some (TrieNode.insertBits (l.getD TrieNode.new) bs hop)) r h

/-- TrieNode::insert for an in-range length (len at most 32). -/
def TrieNode.insert (t : TrieNode) (p len : Nat) (hop : String) : TrieNode :=
  t.insertBits (pathBits p len) hop

/-- Loop body of TrieNode::lookup: before each descent record the current
node's next_hop into result; stop at an absent child (break); after the
loop check the node last reached once more. -/
def TrieNode.lookupBits : TrieNode → List Bool → Option String → Option String
  | t, [], res =>
    match t.next_hop with
    | some h => some h
    | none => res
  | t, b :: bs, res =>
    let res1 := match t.next_hop with
      | some h => some h
      | none => res
    match (if b then t.right else t.left) with
    | none =>
      match t.next_hop with
      | some h => some h
      | none => res1
    | some c => TrieNode.lookupBits c bs res1

/-- TrieNode::lookup, walking the 32 address bits with result
initialized to None. -/
def TrieNode.lookup (t : TrieNode) (ip : Nat) : Option String :=
  t.lookupBits (addrBits ip) none

/-- Number of child descents TrieNode::lookup performs on the given bits:
loop iterations that reach the curr reassignment rather than breaking. -/
def TrieNode.lookupSteps : TrieNode → List Bool → Nat
  | _, [] => 0
  | t, b :: bs =>
    match (if b then t.right else t.left) with
    | none => 0
    | some c => TrieNode.lookupSteps c bs + 1

/-- The debug-build u8 subtraction 32 - prefix_len performed at the top of
TrieNode::insert and inside BSTNode::matches: it panics (None) for a
length above 32. -/
def sub32Checked (len : Nat) : Option Nat :=
  if len ≤ 32 then some (32 - len) else none

/-- TrieNode::insert including the debug-build overflow panic on
32 - prefix_len (modelled as None); the panic fires before any mutation,
so a failing call leaves the trie exactly as it was. -/
def TrieNode.insertChecked (t : TrieNode) (p len : Nat) (hop : String) : Option TrieNode :=
  match sub32Checked len with
  | none => none
  | some _ => some (t.insert p len hop)

/-- Insert a list of routes in order into a fresh trie (TrieNode::new),
as the harness in main.rs does. -/
def trieOfRoutes (rs : List Route) : TrieNode :=
  rs.foldl (fun t r => t.insert r.pfx r.len r.hop) TrieNode.new

/-- Follow a bit path exactly and return the hop stored at its end. -/
def TrieNode.find : TrieNode → List Bool → Option String
  | t, [] => t.next_hop
  | t, b :: bs =>
    match (if b then t.right else t.left) with
    | none => none
    | some c => TrieNode.find c bs

/-- Deepest set entry of the table f along a bit path: the pair of depth
and hop for the longest initial segment of the path on which f is set. -/
def deepestFull (f : List Bool → Option String) : List Bool → Option (Nat × String)
  | [] => (f []).map (fun h => (0, h))
  | b :: bs =>
    match deepestFull (fun q => f (b :: q)) bs with
    | some (d, g) => some (d + 1, g)
    | none => (f []).map (fun h => (0, h))

/-- The path-indexed table written by a route list: each route binds its
bit path to its hop, later routes overwriting earlier ones. -/
def tableOf (rs : List Route) : List Bool → Option String :=
  rs.foldl (fun f r => fun q => if q = pathBits r.pfx r.len then some r.hop else f q)
    (fun _ => none)

/-- Boolean test that the first list is an initial segment of the second. -/
def isPreB : List Bool → List Bool → Bool
  | [], _ => true
  | _ :: _, [] => false
  | a :: as, b :: bs => a == b && isPreB as bs

/-- The BSTNode struct of ip_bst.rs: a full route triple plus children
ordered by raw prefix value. The source links children through
Option Box BSTNode; here the absent child (None) is the constructor nil,
and mk q ql qh lt rt is the node Some BSTNode with those fields. -/
inductive BSTNode where
  | nil
  | mk (pfx : Nat) (plen : Nat) (next_hop : String) (left : BSTNode) (right : BSTNode)
  deriving DecidableEq

/-- BSTNode::insert: strictly smaller raw values go left, all others
(equal included) go right; an existing node is never overwritten. The nil
arm is the absent-child case of the source, which places a fresh
BSTNode::new node there. -/
def BSTNode.insert : BSTNode → Nat → Nat → String → BSTNode
  | nil, p, l, h => .mk p l h nil nil
  | mk q ql qh lt rt, p, l, h =>
    if p < q then .mk q ql qh (lt.insert p l h) rt
    else .mk q ql qh lt (rt.insert p l h)

/-- BSTNode::matches: compare address and stored value under the mask.
The source method exists only on real nodes; the nil arm is never
invoked and returns false. -/
def BSTNode.matches : BSTNode → Nat → Bool
  | .nil, _ => false
  | .mk q ql _ _ _, ip => (ip &&& mask32 ql) == (q &&& mask32 ql)

/-- BSTNode::matches including the debug-build overflow panic on
32 - prefix_len for a stored length above 32 (the zero-length guard is
taken first, as in the source). -/
def BSTNode.matchesChecked : BSTNode → Nat → Option Bool
  | n@(.mk _ ql _ _ _), ip =>
    if ql = 0 then some (n.matches ip)
    else
      match sub32Checked ql with
      | none => none
      | some _ => some (n.matches ip)
  | .nil, _ => some false

/-- BSTNode::lookup with its in/out accumulator pair (best, best_len):
visit the node, then the whole left subtree, then the whole right
subtree, recording a hop only on a match with strictly greater length;
an absent child (nil) contributes nothing. -/
def BSTNode.lookup : BSTNode → Nat → Option String × Int → Option String × Int
  | nil, _, acc => acc
  | mk q ql qh lt rt, ip, acc =>
    let acc1 :=
      if (BSTNode.mk q ql qh lt rt).matches ip ∧ (ql : Int) > acc.2 then
        (some qh, (ql : Int))
      else acc
    rt.lookup ip (lt.lookup ip acc1)

/-- Pre-order (node, left subtree, right subtree) listing of the routes
stored in a BST. -/
def BSTNode.preorder : BSTNode → List Route
  | nil => []
  | mk q ql qh lt rt => ⟨q, ql, qh⟩ :: (lt.preorder ++ rt.preorder)

/-- The search-tree ordering BSTNode::insert maintains: left subtree
strictly below the node's raw value, right subtree at or above it. -/
def BSTNode.Inv : BSTNode → Prop
  | nil => True
  | mk q _ _ lt rt =>
    (∀ r ∈ lt.preorder, r.pfx < q) ∧ (∀ r ∈ rt.preorder, q ≤ r.pfx) ∧
      lt.Inv ∧ rt.Inv

/-- Build a BST exactly the way the harness in main.rs does: the first
route becomes the root via BSTNode::new, the rest are inserted in order;
an empty route list yields no tree (nil). -/
def bstOfRoutes : List Route → BSTNode
  | [] => .nil
  | r :: rs =>
    rs.foldl (fun t s => t.insert s.pfx s.len s.hop) (BSTNode.mk r.pfx r.len r.hop .nil .nil)

/-- A full BST query as the harness performs it: best = None and
best_len = -1, then root.lookup(ip, best, best_len); with no tree the
accumulator is returned untouched (the harness then prints no route). -/
def bstLookup (rs : List Route) (ip : Nat) : Option String × Int :=
  (bstOfRoutes rs).lookup ip (none, -1)

/-- BSTNode::matches stated at the route level. -/
def rMatches (r : Route) (ip : Nat) : Bool :=
  (ip &&& mask32 r.len) == (r.pfx &&& mask32 r.len)

/-- One BSTNode::lookup accumulator update, at the route level. -/
def updBest (ip : Nat) (acc : Option String × Int) (r : Route) : Option String × Int :=
  if rMatches r ip ∧ (r.len : Int) > acc.2 then (some r.hop, (r.len : Int)) else acc

/-- Reference step following the words of the spec (section 8, Longest
match): a route whose top len bits agree with the address replaces the
recorded best when its length is greater than, or equal to (so that the
most recent insert wins ties), the recorded one. -/
def specStep (A : Nat) (acc : Option (Nat × String)) (r : Route) : Option (Nat × String) :=
  if A >>> (32 - r.len) = r.pfx >>> (32 - r.len) then
    match acc with
    | none => some (r.len, r.hop)
    | some (bl, bh) => if bl ≤ r.len then some (r.len, r.hop) else some (bl, bh)
  else acc

/-- Reference best pair (length, hop) over a whole route list. -/
def specLookupFull (rs : List Route) (A : Nat) : Option (Nat × String) :=
  rs.foldl (specStep A) none

/-- Reference result following the words of the spec: the next hop of the
longest matching route, ties broken toward the most recent insert, and
None when no route matches. -/
def specLookup (rs : List Route) (A : Nat) : Option String :=
  (specLookupFull rs A).map Prod.snd

/-- A route as the interface of section 6 admits it: a 32-bit value with a
length between 0 and 32. -/
abbrev ValidRoute (r : Route) : Prop := r.pfx < 2 ^ 32 ∧ r.len ≤ 32

/-- No two routes of the list carry the same length together with the same
significant (top len) bits. -/
abbrev NoCollide (rs : List Route) : Prop :=
  rs.Pairwise (fun r s => ¬(r.len = s.len ∧ r.pfx &&& mask32 r.len = s.pfx &&& mask32 s.len))

/-! Trie lemmas: lookup computes the deepest hop along the address path. -/

theorem deepestFull_const_none (bs : List Bool) : deepestFull (fun _ => none) bs = none := by
  induction bs with
  | nil => simp [deepestFull]
  | cons b bs ih => simp only [deepestFull]; rw [ih]; rfl

theorem find_new (q : List Bool) : TrieNode.new.find q = none := by
  cases q <;> simp [TrieNode.find, TrieNode.new, TrieNode.next_hop, TrieNode.left, TrieNode.right]

theorem lookupBits_eq_deepest (bs : List Bool) : ∀ (t : TrieNode) (res : Option String),
    t.lookupBits bs res = (match deepestFull t.find bs with
      | some (_, g) => some g
      | none => res) := by
  induction bs with
  | nil =>
    intro t res
    cases t with
    | mk l r h => cases h <;> simp [TrieNode.lookupBits, TrieNode.find, deepestFull, TrieNode.next_hop]
  | cons b bs ih =>
    intro t res
    cases t with
    | mk l r h =>
      cases b
      · cases l with
        | none =>
          have hfun : (fun q => TrieNode.find (TrieNode.mk none r h) (false :: q)) =
              (fun _ => (none : Option String)) := by
            funext q
            simp [TrieNode.find, TrieNode.left]
          simp only [deepestFull, hfun, deepestFull_const_none]
          cases h <;>
            simp [TrieNode.lookupBits, TrieNode.next_hop, TrieNode.left, TrieNode.find]
        | some c =>
          have hfun : (fun q => TrieNode.find (TrieNode.mk (some c) r h) (false :: q)) =
              c.find := by
            funext q
            simp [TrieNode.find, TrieNode.left]
          simp only [deepestFull, hfun]
          cases h with
          | none =>
            have hlb : TrieNode.lookupBits (TrieNode.mk (some c) r none) (false :: bs) res =
                c.lookupBits bs res := by
              simp [TrieNode.lookupBits, TrieNode.next_hop, TrieNode.left]
            rw [hlb, ih c]
            cases hD : deepestFull c.find bs with
            | none => simp [TrieNode.find, TrieNode.next_hop]
            | some dg => cases dg with
              | mk d g => simp [TrieNode.find, TrieNode.next_hop]
          | some x =>
            have hlb : TrieNode.lookupBits (TrieNode.mk (some c) r (some x)) (false :: bs) res =
                c.lookupBits bs (some x) := by
              simp [TrieNode.lookupBits, TrieNode.next_hop, TrieNode.left]
            rw [hlb, ih c]
            cases hD : deepestFull c.find bs with
            | none => simp [TrieNode.find, TrieNode.next_hop]
            | some dg => cases dg with
              | mk d g => simp [TrieNode.find, TrieNode.next_hop]
      · cases r with
        | none =>
          have hfun : (fun q => TrieNode.find (TrieNode.mk l none h) (true :: q)) =
              (fun _ => (none : Option String)) := by
            funext q
            simp [TrieNode.find, TrieNode.right]
          simp only [deepestFull, hfun, deepestFull_const_none]
          cases h <;>
            simp [TrieNode.lookupBits, TrieNode.next_hop, TrieNode.right, TrieNode.find]
        | some c =>
          have hfun : (fun q => TrieNode.find (TrieNode.mk l (some c) h) (true :: q)) =
              c.find := by
            funext q
            simp [TrieNode.find, TrieNode.right]
          simp only [deepestFull, hfun]
          cases h with
          | none =>
            have hlb : TrieNode.lookupBits (TrieNode.mk l (some c) none) (true :: bs) res =
                c.lookupBits bs res := by
              simp [TrieNode.lookupBits, TrieNode.next_hop, TrieNode.right]
            rw [hlb, ih c]
            cases hD : deepestFull c.find bs with
            | none => simp [TrieNode.find, TrieNode.next_hop]
            | some dg => cases dg with
              | mk d g => simp [TrieNode.find, TrieNode.next_hop]
          | some x =>
            have hlb : TrieNode.lookupBits (TrieNode.mk l (some c) (some x)) (true :: bs) res =
                c.lookupBits bs (some x) := by
              simp [TrieNode.lookupBits, TrieNode.next_hop, TrieNode.right]
            rw [hlb, ih c]
            cases hD : deepestFull c.find bs with
            | none => simp [TrieNode.find, TrieNode.next_hop]
            | some dg => cases dg with
              | mk d g => simp [TrieNode.find, TrieNode.next_hop]

theorem deepestFull_cons (f : List Bool → Option String) (b : Bool) (bs : List Bool) :
    deepestFull f (b :: bs) = (match deepestFull (fun q => f (b :: q)) bs with
      | some (d, g) => some (d + 1, g)
      | none => (f []).map (fun h => (0, h))) := rfl

theorem deepestFull_ext (f g : List Bool → Option String) (bs : List Bool)
    (h : ∀ q, f q = g q) : deepestFull f bs = deepestFull g bs := by
  have hfg : f = g := funext h
  rw [hfg]

theorem find_insertBits (path : List Bool) : ∀ (t : TrieNode) (hop : String) (q : List Bool),
    (t.insertBits path hop).find q = if q = path then some hop else t.find q := by
  induction path with
  | nil =>
    intro t hop q
    cases t with
    | mk l r h =>
      cases q with
      | nil => simp [TrieNode.insertBits, TrieNode.find, TrieNode.next_hop]
      | cons b bs =>
        simp [TrieNode.insertBits, TrieNode.find, TrieNode.left, TrieNode.right]
  | cons pb pbs ih =>
    intro t hop q
    cases t with
    | mk l r h =>
      cases q with
      | nil =>
        cases pb <;> simp [TrieNode.insertBits, TrieNode.find, TrieNode.next_hop]
      | cons qb qbs =>
        cases pb
        · cases qb
          · by_cases hq : qbs = pbs
            · subst hq
              cases l <;>
                simp [TrieNode.insertBits, TrieNode.find, TrieNode.left, ih]
            · cases l with
              | none =>
                simp [TrieNode.insertBits, TrieNode.find, TrieNode.left, ih, hq, find_new]
              | some c =>
                simp [TrieNode.insertBits, TrieNode.find, TrieNode.left, ih, hq]
          · simp [TrieNode.insertBits, TrieNode.find, TrieNode.left, TrieNode.right]
        · cases qb
          · simp [TrieNode.insertBits, TrieNode.find, TrieNode.left, TrieNode.right]
          · by_cases hq : qbs = pbs
            · subst hq
              cases r <;>
                simp [TrieNode.insertBits, TrieNode.find, TrieNode.right, ih]
            · cases r with
              | none =>
                simp [TrieNode.insertBits, TrieNode.find, TrieNode.right, ih, hq, find_new]
              | some c =>
                simp [TrieNode.insertBits, TrieNode.find, TrieNode.right, ih, hq]

theorem deepestFull_update (bits : List Bool) :
    ∀ (f : List Bool → Option String) (P : List Bool) (hop : String),
    deepestFull (fun q => if q = P then some hop else f q) bits =
      (if isPreB P bits then
        match deepestFull f bits with
        | none => some (P.length, hop)
        | some (d, g) => if d ≤ P.length then some (P.length, hop) else some (d, g)
      else deepestFull f bits) := by
  induction bits with
  | nil =>
    intro f P hop
    cases P with
    | nil =>
      simp only [deepestFull, isPreB]
      cases hf : f [] <;> simp [hf]
    | cons a as =>
      simp only [deepestFull, isPreB]
      simp
  | cons b bs ih =>
    intro f P hop
    cases P with
    | nil =>
      rw [deepestFull_cons, deepestFull_cons]
      rw [deepestFull_ext (fun q => if b :: q = ([] : List Bool) then some hop else f (b :: q))
            (fun q => f (b :: q)) bs (by intro q; simp)]
      cases hI : deepestFull (fun q => f (b :: q)) bs with
      | none => cases hf : f [] <;> simp [hf, isPreB]
      | some dg =>
        cases dg with
        | mk d g => simp [isPreB, Nat.le_zero]
    | cons a as =>
      rw [deepestFull_cons, deepestFull_cons]
      by_cases hab : b = a
      · subst hab
        rw [deepestFull_ext (fun q => if b :: q = b :: as then some hop else f (b :: q))
              (fun q => if q = as then some hop else f (b :: q)) bs (by intro q; simp)]
        rw [ih (fun q => f (b :: q)) as hop]
        by_cases hP : isPreB as bs = true
        · cases hI : deepestFull (fun q => f (b :: q)) bs with
          | none =>
            cases hf : f [] <;>
              simp [hf, hP, isPreB]
          | some dg =>
            cases dg with
            | mk d g =>
              by_cases hd : d ≤ as.length
              · simp [hP, hd, isPreB]
              · simp [hP, hd, isPreB]
        · rw [Bool.not_eq_true] at hP
          cases hI : deepestFull (fun q => f (b :: q)) bs <;>
            simp [hI, hP, isPreB]
      · rw [deepestFull_ext (fun q => if b :: q = a :: as then some hop else f (b :: q))
              (fun q => f (b :: q)) bs (by intro q; simp [hab])]
        have hpre : isPreB (a :: as) (b :: bs) = false := by
          simp [isPreB]
          intro hcontra
          exact absurd hcontra.symm hab
        cases hI : deepestFull (fun q => f (b :: q)) bs <;> simp [hI, hpre]

/-! Bridges between bit paths, shifts and masks. -/

theorem pathBits_length (p l : Nat) : (pathBits p l).length = l := by
  simp [pathBits]

theorem take_pathBits (a l m : Nat) (h : l ≤ m) :
    (pathBits a m).take l = pathBits a l := by
  simp [pathBits, ← List.map_take, List.take_range, min_eq_left h]

theorem isPreB_iff_take (xs : List Bool) : ∀ ys, isPreB xs ys = true ↔ ys.take xs.length = xs := by
  induction xs with
  | nil => intro ys; simp [isPreB]
  | cons a as ih =>
    intro ys
    cases ys with
    | nil => simp [isPreB]
    | cons b bs =>
      simp only [isPreB, List.length_cons, List.take_succ_cons, List.cons.injEq,
        Bool.and_eq_true, beq_iff_eq, ih]
      constructor
      · rintro ⟨h1, h2⟩; exact ⟨h1.symm, h2⟩
      · rintro ⟨h1, h2⟩; exact ⟨h1.symm, h2⟩

theorem shiftRight_eq_iff_testBit (A p l : Nat) (hA : A < 2 ^ 32) (hp : p < 2 ^ 32)
    (hl : l ≤ 32) :
    A >>> (32 - l) = p >>> (32 - l) ↔ ∀ j, j < l → A.testBit (31 - j) = p.testBit (31 - j) := by
  constructor
  · intro hs j hj
    have h1 : 31 - j = (32 - l) + (l - 1 - j) := by omega
    rw [h1, ← Nat.testBit_shiftRight, ← Nat.testBit_shiftRight, hs]
  · intro hb
    apply Nat.eq_of_testBit_eq
    intro i
    rw [Nat.testBit_shiftRight, Nat.testBit_shiftRight]
    by_cases hi : 32 - l + i < 32
    · have hj : l - 1 - i < l := by omega
      have h2 : 32 - l + i = 31 - (l - 1 - i) := by omega
      rw [h2]
      exact hb (l - 1 - i) hj
    · have hA2 : A < 2 ^ (32 - l + i) :=
        lt_of_lt_of_le hA (Nat.pow_le_pow_right (by norm_num) (by omega))
      have hp2 : p < 2 ^ (32 - l + i) :=
        lt_of_lt_of_le hp (Nat.pow_le_pow_right (by norm_num) (by omega))
      rw [Nat.testBit_lt_two_pow hA2, Nat.testBit_lt_two_pow hp2]

theorem pathBits_eq_iff (A p l : Nat) (hA : A < 2 ^ 32) (hp : p < 2 ^ 32) (hl : l ≤ 32) :
    pathBits A l = pathBits p l ↔ A >>> (32 - l) = p >>> (32 - l) := by
  rw [shiftRight_eq_iff_testBit A p l hA hp hl]
  unfold pathBits
  rw [List.map_eq_map_iff]
  constructor
  · intro h j hj
    exact h j (List.mem_range.mpr hj)
  · intro h j hj
    exact h j (List.mem_range.mp hj)

theorem isPreB_pathBits_iff (A p l : Nat) (hA : A < 2 ^ 32) (hp : p < 2 ^ 32) (hl : l ≤ 32) :
    isPreB (pathBits p l) (addrBits A) = true ↔ A >>> (32 - l) = p >>> (32 - l) := by
  rw [isPreB_iff_take, pathBits_length, addrBits, take_pathBits A l 32 hl]
  exact pathBits_eq_iff A p l hA hp hl

/-! The trie materializes exactly the table of inserted paths. -/

theorem tableOf_append (rs : List Route) (r : Route) (q : List Bool) :
    tableOf (rs ++ [r]) q = if q = pathBits r.pfx r.len then some r.hop else tableOf rs q := by
  simp [tableOf, List.foldl_append]

theorem find_trieOfRoutes (rs : List Route) : ∀ q, (trieOfRoutes rs).find q = tableOf rs q := by
  induction rs using List.reverseRecOn with
  | nil => intro q; simp [trieOfRoutes, tableOf, find_new]
  | append_singleton rs r ih =>
    intro q
    rw [tableOf_append]
    have h1 : trieOfRoutes (rs ++ [r]) = (trieOfRoutes rs).insert r.pfx r.len r.hop := by
      simp [trieOfRoutes, List.foldl_append]
    rw [h1]
    unfold TrieNode.insert
    rw [find_insertBits, ih q]

theorem specLookupFull_append (rs : List Route) (r : Route) (A : Nat) :
    specLookupFull (rs ++ [r]) A = specStep A (specLookupFull rs A) r := by
  simp [specLookupFull, List.foldl_append]

theorem deepest_tableOf (A : Nat) (hA : A < 2 ^ 32) :
    ∀ (rs : List Route), (∀ r ∈ rs, ValidRoute r) →
    deepestFull (tableOf rs) (addrBits A) = specLookupFull rs A := by
  intro rs
  induction rs using List.reverseRecOn with
  | nil =>
    intro _
    have h0 : tableOf [] = (fun _ => (none : Option String)) := rfl
    simp [specLookupFull, h0, deepestFull_const_none]
  | append_singleton rs r ih =>
    intro hv
    have hvr : ValidRoute r := hv r (by simp)
    have hvs : ∀ s ∈ rs, ValidRoute s := fun s hs => hv s (by simp [hs])
    rw [specLookupFull_append, ← ih hvs]
    have htab : tableOf (rs ++ [r]) =
        fun q => if q = pathBits r.pfx r.len then some r.hop else tableOf rs q := by
      funext q
      exact tableOf_append rs r q
    rw [htab]
    rw [deepestFull_update (addrBits A) (tableOf rs) (pathBits r.pfx r.len) r.hop]
    unfold specStep
    by_cases hc : A >>> (32 - r.len) = r.pfx >>> (32 - r.len)
    · have hpre : isPreB (pathBits r.pfx r.len) (addrBits A) = true :=
        (isPreB_pathBits_iff A r.pfx r.len hA hvr.1 hvr.2).mpr hc
      rw [hpre]
      simp only [if_pos hc, pathBits_length, if_true]
    · have hpre' : ¬ isPreB (pathBits r.pfx r.len) (addrBits A) = true := by
        intro hcon
        exact hc ((isPreB_pathBits_iff A r.pfx r.len hA hvr.1 hvr.2).mp hcon)
      rw [Bool.not_eq_true] at hpre'
      rw [hpre']
      simp [hc]

/-- The core trie correctness fact: looking an address up in the trie built
from any route list computes the reference longest-match answer. -/
theorem trie_lookup_eq_specLookup (rs : List Route) (A : Nat)
    (hv : ∀ r ∈ rs, ValidRoute r) (hA : A < 2 ^ 32) :
    TrieNode.lookup (trieOfRoutes rs) A = specLookup rs A := by
  unfold TrieNode.lookup specLookup
  rw [lookupBits_eq_deepest]
  have hf : (trieOfRoutes rs).find = tableOf rs := funext (find_trieOfRoutes rs)
  rw [hf, deepest_tableOf A hA rs hv]
  cases specLookupFull rs A with
  | none => rfl
  | some dg => cases dg with | mk d g => rfl

/-! Mask arithmetic of BSTNode::matches. -/

theorem testBit_mask32 (l i : Nat) (hl : l ≤ 32) (h0 : l ≠ 0) :
    (mask32 l).testBit i = (decide (32 - l ≤ i) && decide (i < 32)) := by
  unfold mask32
  rw [if_neg h0]
  rw [Nat.testBit_mod_two_pow, Nat.testBit_shiftLeft, Nat.testBit_two_pow_sub_one]
  by_cases h1 : i < 32 <;> by_cases h2 : 32 - l ≤ i <;>
    simp [h1, h2, ge_iff_le] <;> omega

theorem mask_eq_iff_shift (A p l : Nat) (hA : A < 2 ^ 32) (hp : p < 2 ^ 32) (hl : l ≤ 32) :
    (A &&& mask32 l = p &&& mask32 l) ↔ A >>> (32 - l) = p >>> (32 - l) := by
  by_cases h0 : l = 0
  · subst h0
    constructor
    · intro _
      have h1 : A >>> 32 = 0 := by
        rw [Nat.shiftRight_eq_div_pow]
        exact Nat.div_eq_of_lt hA
      have h2 : p >>> 32 = 0 := by
        rw [Nat.shiftRight_eq_div_pow]
        exact Nat.div_eq_of_lt hp
      simpa using h1.trans h2.symm
    · intro _
      simp [mask32]
  · rw [shiftRight_eq_iff_testBit A p l hA hp hl]
    constructor
    · intro h j hj
      have hland := congrArg (fun x => x.testBit (31 - j)) h
      simp only [Nat.testBit_land] at hland
      rw [testBit_mask32 l (31 - j) hl h0] at hland
      have hc1 : 32 - l ≤ 31 - j := by omega
      have hc2 : 31 - j < 32 := by omega
      simpa [hc1, hc2] using hland
    · intro h
      apply Nat.eq_of_testBit_eq
      intro i
      rw [Nat.testBit_land, Nat.testBit_land, testBit_mask32 l i hl h0]
      by_cases hi : 32 - l ≤ i ∧ i < 32
      · have hj : 31 - i < l := by omega
        have heq : 31 - (31 - i) = i := by omega
        have hb := h (31 - i) hj
        rw [heq] at hb
        simp [hi.1, hi.2, hb]
      · rw [not_and_or] at hi
        rcases hi with h1 | h1
        · simp [h1]
        · simp [h1]

theorem rMatches_iff_shift (r : Route) (A : Nat) (hv : ValidRoute r) (hA : A < 2 ^ 32) :
    rMatches r A = true ↔ A >>> (32 - r.len) = r.pfx >>> (32 - r.len) := by
  unfold rMatches
  rw [beq_iff_eq]
  exact mask_eq_iff_shift A r.pfx r.len hA hv.1 hv.2

/-! BST lookup as a pre-order fold. -/

theorem lookup_eq_foldl (t : BSTNode) : ∀ (ip : Nat) (acc : Option String × Int),
    t.lookup ip acc = t.preorder.foldl (updBest ip) acc := by
  induction t with
  | nil => intro ip acc; rfl
  | mk q ql qh lt rt ihl ihr =>
    intro ip acc
    simp only [BSTNode.lookup, BSTNode.preorder, List.foldl_cons, List.foldl_append,
      updBest, rMatches, BSTNode.matches, ihl, ihr]

/-! Pre-order of an insert: the new route joins the stored multiset. -/

theorem preorder_insert_perm (t : BSTNode) (p l : Nat) (h : String) :
    (t.insert p l h).preorder.Perm (⟨p, l, h⟩ :: t.preorder) := by
  induction t with
  | nil => simp [BSTNode.insert, BSTNode.preorder]
  | mk q ql qh lt rt ihl ihr =>
    by_cases hpq : p < q
    · simp only [BSTNode.insert, if_pos hpq, BSTNode.preorder]
      refine ((ihl.append_right rt.preorder).cons _).trans ?_
      simp only [List.cons_append]
      exact List.Perm.swap _ _ _
    · simp only [BSTNode.insert, if_neg hpq, BSTNode.preorder]
      refine (((ihr.append_left lt.preorder)).cons _).trans ?_
      refine (List.perm_middle.cons _).trans ?_
      exact List.Perm.swap _ _ _

theorem preorder_foldl_perm (rs : List Route) : ∀ (t : BSTNode),
    ((rs.foldl (fun t s => t.insert s.pfx s.len s.hop) t).preorder).Perm (t.preorder ++ rs) := by
  induction rs with
  | nil => intro t; simp
  | cons s rs ih =>
    intro t
    rw [List.foldl_cons]
    refine (ih (t.insert s.pfx s.len s.hop)).trans ?_
    refine ((preorder_insert_perm t s.pfx s.len s.hop).append_right rs).trans ?_
    simp only [List.cons_append]
    exact List.perm_middle.symm

theorem bstOf_perm (rs : List Route) : (bstOfRoutes rs).preorder.Perm rs := by
  cases rs with
  | nil => simp [bstOfRoutes, BSTNode.preorder]
  | cons r rs' =>
    refine (preorder_foldl_perm rs' _).trans ?_
    simp [BSTNode.preorder]

/-! Properties of the accumulator fold. -/

theorem updBest_snd_mono (ip : Nat) (acc : Option String × Int) (r : Route) :
    acc.2 ≤ (updBest ip acc r).2 := by
  unfold updBest
  split
  · next h => exact le_of_lt h.2
  · exact le_refl _

theorem foldl_updBest_mono (ip : Nat) (l : List Route) : ∀ acc,
    acc.2 ≤ (l.foldl (updBest ip) acc).2 := by
  induction l with
  | nil => intro acc; exact le_refl _
  | cons r l ih =>
    intro acc
    exact le_trans (updBest_snd_mono ip acc r) (ih (updBest ip acc r))

theorem foldl_updBest_keep (ip : Nat) (l : List Route) : ∀ acc,
    (∀ r ∈ l, rMatches r ip = true → (r.len : Int) ≤ acc.2) →
    l.foldl (updBest ip) acc = acc := by
  induction l with
  | nil => intro acc _; rfl
  | cons r l ih =>
    intro acc hall
    have h1 : updBest ip acc r = acc := by
      unfold updBest
      split
      · next h => exact absurd (hall r (by simp) h.1) (not_le.mpr h.2)
      · rfl
    rw [List.foldl_cons, h1]
    exact ih acc (fun s hs hm => hall s (by simp [hs]) hm)

theorem foldl_updBest_ge (ip : Nat) (l : List Route) : ∀ acc (r : Route), r ∈ l →
    rMatches r ip = true → (r.len : Int) ≤ (l.foldl (updBest ip) acc).2 := by
  induction l with
  | nil => intro acc r hr; cases hr
  | cons s l ih =>
    intro acc r hr hm
    rcases List.mem_cons.mp hr with heq | ht
    · subst heq
      have h1 : (r.len : Int) ≤ (updBest ip acc r).2 := by
        unfold updBest
        split
        · next h => simp
        · next h =>
          push_neg at h
          exact h hm
      rw [List.foldl_cons]
      exact le_trans h1 (foldl_updBest_mono ip l (updBest ip acc r))
    · rw [List.foldl_cons]
      exact ih (updBest ip acc s) r ht hm

theorem foldl_updBest_lt (ip : Nat) (L : Int) (l : List Route) : ∀ acc,
    acc.2 < L → (∀ r ∈ l, rMatches r ip = true → (r.len : Int) < L) →
    (l.foldl (updBest ip) acc).2 < L := by
  induction l with
  | nil => intro acc h _; exact h
  | cons s l ih =>
    intro acc h hall
    rw [List.foldl_cons]
    refine ih (updBest ip acc s) ?_ (fun r hr hm => hall r (by simp [hr]) hm)
    unfold updBest
    split
    · next hc => exact hall s (by simp) hc.1
    · exact h

theorem foldl_updBest_first_max (ip : Nat) (xs : List Route) (r0 : Route) (ys : List Route)
    (acc : Option String × Int) (hm : rMatches r0 ip = true)
    (hxs : ∀ r ∈ xs, rMatches r ip = true → (r.len : Int) < (r0.len : Int))
    (hys : ∀ r ∈ ys, rMatches r ip = true → (r.len : Int) ≤ (r0.len : Int))
    (hacc : acc.2 < (r0.len : Int)) :
    (xs ++ r0 :: ys).foldl (updBest ip) acc = (some r0.hop, (r0.len : Int)) := by
  rw [List.foldl_append, List.foldl_cons]
  have h1 : (xs.foldl (updBest ip) acc).2 < (r0.len : Int) :=
    foldl_updBest_lt ip (r0.len : Int) xs acc hacc hxs
  have h2 : updBest ip (xs.foldl (updBest ip) acc) r0 = (some r0.hop, (r0.len : Int)) := by
    unfold updBest
    rw [if_pos ⟨hm, h1⟩]
  rw [h2]
  exact foldl_updBest_keep ip ys _ (fun r hr hmr => hys r hr hmr)

theorem mem_split_first (a : Route) (l : List Route) (h : a ∈ l) :
    ∃ xs ys, l = xs ++ a :: ys ∧ a ∉ xs := by
  induction l with
  | nil => cases h
  | cons b l ih =>
    by_cases hab : a = b
    · exact ⟨[], l, by simp [hab], by simp⟩
    · have h' : a ∈ l := by
        rcases List.mem_cons.mp h with h1 | h1
        · exact absurd h1 hab
        · exact h1
      obtain ⟨xs, ys, heq, hnot⟩ := ih h'
      exact ⟨b :: xs, ys, by rw [heq]; rfl, by simp [hab, hnot]⟩

theorem bst_lookup_first_max (t : BSTNode) (ip : Nat) (xs : List Route) (r0 : Route)
    (ys : List Route) (hsplit : t.preorder = xs ++ r0 :: ys)
    (hm : rMatches r0 ip = true)
    (hxs : ∀ r ∈ xs, rMatches r ip = true → (r.len : Int) < (r0.len : Int))
    (hys : ∀ r ∈ ys, rMatches r ip = true → (r.len : Int) ≤ (r0.len : Int)) :
    t.lookup ip (none, -1) = (some r0.hop, (r0.len : Int)) := by
  rw [lookup_eq_foldl, hsplit]
  refine foldl_updBest_first_max ip xs r0 ys (none, -1) hm hxs hys ?_
  have : (0 : Int) ≤ (r0.len : Int) := Int.ofNat_nonneg r0.len
  omega

theorem bst_lookup_unique_max (rs : List Route) (ip : Nat) (r0 : Route)
    (h0 : r0 ∈ rs) (hm : rMatches r0 ip = true)
    (hmax : ∀ r ∈ rs, rMatches r ip = true → r ≠ r0 → (r.len : Int) < (r0.len : Int)) :
    bstLookup rs ip = (some r0.hop, (r0.len : Int)) := by
  unfold bstLookup
  have hperm := bstOf_perm rs
  have h0' : r0 ∈ (bstOfRoutes rs).preorder := hperm.mem_iff.mpr h0
  obtain ⟨xs, ys, heq, hnot⟩ := mem_split_first r0 _ h0'
  refine bst_lookup_first_max _ ip xs r0 ys heq hm ?_ ?_
  · intro r hr hmr
    have hrs : r ∈ rs := hperm.mem_iff.mp (by rw [heq]; exact List.mem_append_left _ hr)
    have hne : r ≠ r0 := fun he => hnot (he ▸ hr)
    exact hmax r hrs hmr hne
  · intro r hr hmr
    have hrs : r ∈ rs :=
      hperm.mem_iff.mp (by rw [heq]; exact List.mem_append_right _ (List.mem_cons_of_mem _ hr))
    by_cases hne : r = r0
    · rw [hne]
    · exact le_of_lt (hmax r hrs hmr hne)

theorem bst_lookup_no_match (rs : List Route) (ip : Nat)
    (h : ∀ r ∈ rs, rMatches r ip = false) : bstLookup rs ip = (none, -1) := by
  unfold bstLookup
  rw [lookup_eq_foldl]
  refine foldl_updBest_keep ip _ _ (fun r hr hm => ?_)
  have hrs : r ∈ rs := (bstOf_perm rs).mem_iff.mp hr
  rw [h r hrs] at hm
  cases hm

/-! Reference fold facts mirroring the same structure. -/

theorem specLookupFull_no_match (A : Nat) (rs : List Route)
    (h : ∀ r ∈ rs, ¬ A >>> (32 - r.len) = r.pfx >>> (32 - r.len)) :
    specLookupFull rs A = none := by
  induction rs with
  | nil => rfl
  | cons r rs ih =>
    have h1 : specStep A none r = none := by
      unfold specStep
      rw [if_neg (h r (by simp))]
    have h2 : specLookupFull (r :: rs) A = rs.foldl (specStep A) (specStep A none r) := rfl
    rw [h2, h1]
    exact ih (fun s hs => h s (by simp [hs]))

theorem specFold_provenance (A : Nat) (rs : List Route) : ∀ acc bl bh,
    rs.foldl (specStep A) acc = some (bl, bh) →
    acc = some (bl, bh) ∨
      ∃ r ∈ rs, (A >>> (32 - r.len) = r.pfx >>> (32 - r.len)) ∧ r.len = bl ∧ r.hop = bh := by
  induction rs with
  | nil => intro acc bl bh h; exact Or.inl h
  | cons r rs ih =>
    intro acc bl bh h
    rw [List.foldl_cons] at h
    rcases ih (specStep A acc r) bl bh h with h1 | h1
    · unfold specStep at h1
      split at h1
      · next hc =>
        cases acc with
        | none =>
          simp only [Option.some.injEq, Prod.mk.injEq] at h1
          exact Or.inr ⟨r, by simp, hc, h1.1, h1.2⟩
        | some pz =>
          cases pz with
          | mk cl ch =>
            dsimp only at h1
            by_cases hle : cl ≤ r.len
            · rw [if_pos hle] at h1
              simp only [Option.some.injEq, Prod.mk.injEq] at h1
              exact Or.inr ⟨r, by simp, hc, h1.1, h1.2⟩
            · rw [if_neg hle] at h1
              exact Or.inl h1
      · next hc => exact Or.inl h1
    · obtain ⟨s, hs, rest⟩ := h1
      exact Or.inr ⟨s, by simp [hs], rest⟩

theorem specFold_keep (A : Nat) (rs : List Route) : ∀ bl bh,
    (∀ r ∈ rs, (A >>> (32 - r.len) = r.pfx >>> (32 - r.len)) →
      r.len < bl ∨ (r.len = bl ∧ r.hop = bh)) →
    rs.foldl (specStep A) (some (bl, bh)) = some (bl, bh) := by
  induction rs with
  | nil => intro bl bh _; rfl
  | cons r rs ih =>
    intro bl bh hall
    have h1 : specStep A (some (bl, bh)) r = some (bl, bh) := by
      unfold specStep
      split
      · next hc =>
        dsimp only
        rcases hall r (by simp) hc with hlt | ⟨he1, he2⟩
        · rw [if_neg (by omega)]
        · rw [if_pos (by omega), he1, he2]
      · rfl
    rw [List.foldl_cons, h1]
    exact ih bl bh (fun s hs => hall s (by simp [hs]))

theorem specFold_bound (A : Nat) (xs : List Route) (L : Nat) : ∀ acc,
    (acc = none ∨ ∃ bl bh, acc = some (bl, bh) ∧ bl < L) →
    (∀ r ∈ xs, (A >>> (32 - r.len) = r.pfx >>> (32 - r.len)) → r.len < L) →
    (xs.foldl (specStep A) acc = none ∨
      ∃ bl bh, xs.foldl (specStep A) acc = some (bl, bh) ∧ bl < L) := by
  induction xs with
  | nil => intro acc h _; exact h
  | cons r xs ih =>
    intro acc hacc hall
    rw [List.foldl_cons]
    refine ih (specStep A acc r) ?_ (fun s hs hc => hall s (by simp [hs]) hc)
    unfold specStep
    split
    · next hc =>
      have hr : r.len < L := hall r (by simp) hc
      cases acc with
      | none => exact Or.inr ⟨r.len, r.hop, rfl, hr⟩
      | some pz =>
        cases pz with
        | mk cl ch =>
          dsimp only
          by_cases hle : cl ≤ r.len
          · rw [if_pos hle]
            exact Or.inr ⟨r.len, r.hop, rfl, hr⟩
          · rw [if_neg hle]
            rcases hacc with h1 | ⟨bl, bh, heq2, hlt⟩
            · exact absurd h1 (by simp)
            · simp only [Option.some.injEq, Prod.mk.injEq] at heq2
              exact Or.inr ⟨cl, ch, rfl, by omega⟩
    · next hc => exact hacc

theorem spec_unique_max (A : Nat) (rs : List Route) (r0 : Route)
    (h0 : r0 ∈ rs) (hc0 : A >>> (32 - r0.len) = r0.pfx >>> (32 - r0.len))
    (hmax : ∀ r ∈ rs, (A >>> (32 - r.len) = r.pfx >>> (32 - r.len)) → r ≠ r0 →
      r.len < r0.len) :
    specLookupFull rs A = some (r0.len, r0.hop) := by
  obtain ⟨xs, ys, heq, hnot⟩ := mem_split_first r0 rs h0
  unfold specLookupFull
  rw [heq, List.foldl_append, List.foldl_cons]
  have hb : xs.foldl (specStep A) none = none ∨
      ∃ bl bh, xs.foldl (specStep A) none = some (bl, bh) ∧ bl < r0.len := by
    refine specFold_bound A xs r0.len none (Or.inl rfl) (fun r hr hc => ?_)
    have hrs : r ∈ rs := by rw [heq]; exact List.mem_append_left _ hr
    exact hmax r hrs hc (fun he => hnot (he ▸ hr))
  have hstep : specStep A (xs.foldl (specStep A) none) r0 = some (r0.len, r0.hop) := by
    rcases hb with h1 | ⟨bl, bh, h1, hlt⟩
    · rw [h1]
      unfold specStep
      rw [if_pos hc0]
    · rw [h1]
      unfold specStep
      rw [if_pos hc0]
      dsimp only
      rw [if_pos (by omega)]
  rw [hstep]
  refine specFold_keep A ys r0.len r0.hop (fun r hr hc => ?_)
  have hrs : r ∈ rs := by
    rw [heq]
    exact List.mem_append_right _ (List.mem_cons_of_mem _ hr)
  by_cases hne : r = r0
  · exact Or.inr ⟨by rw [hne], by rw [hne]⟩
  · exact Or.inl (hmax r hrs hc hne)

/-! BST structural facts: invariant and placement of an insert. -/

theorem mem_preorder_insert (r : Route) (t : BSTNode) (p l : Nat) (h : String) :
    r ∈ (t.insert p l h).preorder ↔ r = ⟨p, l, h⟩ ∨ r ∈ t.preorder := by
  rw [(preorder_insert_perm t p l h).mem_iff]
  simp

theorem Inv_insert (t : BSTNode) (p l : Nat) (h : String) (hinv : t.Inv) :
    (t.insert p l h).Inv := by
  induction t with
  | nil => simp [BSTNode.insert, BSTNode.Inv, BSTNode.preorder]
  | mk q ql qh lt rt ihl ihr =>
    simp only [BSTNode.Inv] at hinv
    obtain ⟨hL, hR, hIL, hIR⟩ := hinv
    by_cases hpq : p < q
    · simp only [BSTNode.insert, if_pos hpq, BSTNode.Inv]
      refine ⟨?_, hR, ihl hIL, hIR⟩
      intro r hr
      rcases (mem_preorder_insert r lt p l h).mp hr with he | hm
      · rw [he]
        exact hpq
      · exact hL r hm
    · simp only [BSTNode.insert, if_neg hpq, BSTNode.Inv]
      refine ⟨hL, ?_, hIL, ihr hIR⟩
      intro r hr
      rcases (mem_preorder_insert r rt p l h).mp hr with he | hm
      · rw [he]
        exact le_of_not_lt hpq
      · exact hR r hm

theorem Inv_foldl (rs : List Route) : ∀ t : BSTNode, t.Inv →
    (rs.foldl (fun t s => t.insert s.pfx s.len s.hop) t).Inv := by
  induction rs with
  | nil => intro t h; exact h
  | cons s rs ih =>
    intro t h
    rw [List.foldl_cons]
    exact ih _ (Inv_insert t s.pfx s.len s.hop h)

theorem Inv_bstOfRoutes (rs : List Route) : (bstOfRoutes rs).Inv := by
  cases rs with
  | nil => trivial
  | cons r rs' =>
    refine Inv_foldl rs' _ ?_
    simp [BSTNode.Inv, BSTNode.preorder]

theorem preorder_insert_split (t : BSTNode) (p l : Nat) (h : String) : t.Inv →
    ∃ xs ys, (t.insert p l h).preorder = xs ++ ⟨p, l, h⟩ :: ys ∧
      t.preorder = xs ++ ys ∧ (∀ r ∈ ys, r.pfx ≠ p) := by
  induction t with
  | nil =>
    intro _
    exact ⟨[], [], by simp [BSTNode.insert, BSTNode.preorder], rfl, by simp⟩
  | mk q ql qh lt rt ihl ihr =>
    intro hinv
    simp only [BSTNode.Inv] at hinv
    obtain ⟨hL, hR, hIL, hIR⟩ := hinv
    by_cases hpq : p < q
    · obtain ⟨xs, ys, h1, h2, h3⟩ := ihl hIL
      refine ⟨⟨q, ql, qh⟩ :: xs, ys ++ rt.preorder, ?_, ?_, ?_⟩
      · simp only [BSTNode.insert, if_pos hpq, BSTNode.preorder, h1]
        simp
      · simp only [BSTNode.preorder, h2]
        simp
      · intro r hr
        rcases List.mem_append.mp hr with hm | hm
        · exact h3 r hm
        · intro he
          have := hR r hm
          omega
    · obtain ⟨xs, ys, h1, h2, h3⟩ := ihr hIR
      refine ⟨⟨q, ql, qh⟩ :: (lt.preorder ++ xs), ys, ?_, ?_, ?_⟩
      · simp only [BSTNode.insert, if_neg hpq, BSTNode.preorder, h1]
        simp
      · simp only [BSTNode.preorder, h2]
        simp
      · exact h3

theorem bstOfRoutes_append_last (r : Route) (rs' : List Route) (s : Route) :
    bstOfRoutes ((r :: rs') ++ [s]) = (bstOfRoutes (r :: rs')).insert s.pfx s.len s.hop := by
  simp [bstOfRoutes, List.foldl_append]

theorem bst_reinsert_lookup (rs : List Route) (p l : Nat) (h1v h2v : String) (A : Nat)
    (hmem : (⟨p, l, h1v⟩ : Route) ∈ rs) :
    bstLookup (rs ++ [⟨p, l, h2v⟩]) A = bstLookup rs A := by
  cases rs with
  | nil => cases hmem
  | cons r rs' =>
    unfold bstLookup
    rw [bstOfRoutes_append_last r rs' ⟨p, l, h2v⟩]
    have hinv : (bstOfRoutes (r :: rs')).Inv := Inv_bstOfRoutes _
    obtain ⟨xs, ys, hs1, hs2, hs3⟩ :=
      preorder_insert_split (bstOfRoutes (r :: rs')) p l h2v hinv
    rw [lookup_eq_foldl, lookup_eq_foldl, hs1, hs2]
    rw [List.foldl_append, List.foldl_append, List.foldl_cons]
    have hmem' : (⟨p, l, h1v⟩ : Route) ∈ xs := by
      have hmt : (⟨p, l, h1v⟩ : Route) ∈ (bstOfRoutes (r :: rs')).preorder :=
        (bstOf_perm (r :: rs')).mem_iff.mpr hmem
      rw [hs2] at hmt
      rcases List.mem_append.mp hmt with hm | hm
      · exact hm
      · exact absurd rfl (hs3 _ hm)
    have hupd : updBest A (xs.foldl (updBest A) (none, -1)) ⟨p, l, h2v⟩ =
        xs.foldl (updBest A) (none, -1) := by
      by_cases hm2 : rMatches (⟨p, l, h2v⟩ : Route) A = true
      · have hge : (((⟨p, l, h1v⟩ : Route)).len : Int) ≤ (xs.foldl (updBest A) (none, -1)).2 :=
          foldl_updBest_ge A xs (none, -1) ⟨p, l, h1v⟩ hmem' hm2
        revert hge
        generalize xs.foldl (updBest A) (none, -1) = acc
        intro hge
        unfold updBest
        split
        · next hcc =>
          exfalso
          have h2 := hcc.2
          dsimp only at hge h2
          omega
        · rfl
      · generalize xs.foldl (updBest A) (none, -1) = acc
        unfold updBest
        rw [if_neg (fun hc => hm2 hc.1)]
    rw [hupd]

/-! The longest matcher exists and, collision-free, is strict. -/

theorem max_matcher (ip : Nat) (rs : List Route) :
    (∀ r ∈ rs, rMatches r ip = false) ∨
    ∃ r0 ∈ rs, rMatches r0 ip = true ∧ ∀ s ∈ rs, rMatches s ip = true → s.len ≤ r0.len := by
  induction rs with
  | nil =>
    left
    intro r hr
    cases hr
  | cons a l ih =>
    rcases ih with hnone | ⟨r0, hr0, hm0, hmax⟩
    · by_cases ha : rMatches a ip = true
      · right
        refine ⟨a, by simp, ha, ?_⟩
        intro s hs hms
        rcases List.mem_cons.mp hs with he | ht
        · rw [he]
        · rw [hnone s ht] at hms
          cases hms
      · left
        intro r hr
        rcases List.mem_cons.mp hr with he | ht
        · rw [he]
          exact Bool.eq_false_iff.mpr ha
        · exact hnone r ht
    · by_cases ha : rMatches a ip = true
      · by_cases hlen : r0.len ≤ a.len
        · right
          refine ⟨a, by simp, ha, ?_⟩
          intro s hs hms
          rcases List.mem_cons.mp hs with he | ht
          · rw [he]
          · exact le_trans (hmax s ht hms) hlen
        · right
          refine ⟨r0, by simp [hr0], hm0, ?_⟩
          intro s hs hms
          rcases List.mem_cons.mp hs with he | ht
          · rw [he]
            omega
          · exact hmax s ht hms
      · right
        refine ⟨r0, by simp [hr0], hm0, ?_⟩
        intro s hs hms
        rcases List.mem_cons.mp hs with he | ht
        · rw [he] at hms
          exact absurd hms ha
        · exact hmax s ht hms

theorem strict_max_of_noCollide (A : Nat) (rs : List Route) (r0 : Route) (hnc : NoCollide rs)
    (hr0 : r0 ∈ rs) (hm0 : rMatches r0 A = true)
    (hmax : ∀ s ∈ rs, rMatches s A = true → s.len ≤ r0.len) :
    ∀ r ∈ rs, rMatches r A = true → r ≠ r0 → (r.len : Int) < (r0.len : Int) := by
  intro r hr hm hne
  have hle : r.len ≤ r0.len := hmax r hr hm
  have hsym : Symmetric (fun r s : Route =>
      ¬(r.len = s.len ∧ r.pfx &&& mask32 r.len = s.pfx &&& mask32 s.len)) := by
    intro x y hxy hyx
    exact hxy ⟨hyx.1.symm, hyx.2.symm⟩
  have hnc' := List.Pairwise.forall hsym hnc hr hr0 hne
  by_cases heq : r.len = r0.len
  · exfalso
    apply hnc'
    refine ⟨heq, ?_⟩
    unfold rMatches at hm hm0
    rw [beq_iff_eq] at hm hm0
    rw [← hm, heq, hm0]
  · omega

/-! Assembled helper results. -/

theorem trieOfRoutes_append (rs : List Route) (r : Route) :
    trieOfRoutes (rs ++ [r]) = (trieOfRoutes rs).insert r.pfx r.len r.hop := by
  simp [trieOfRoutes, List.foldl_append]

theorem shiftRight32_eq_zero (A : Nat) (hA : A < 2 ^ 32) : A >>> 32 = 0 := by
  rw [Nat.shiftRight_eq_div_pow]
  exact Nat.div_eq_of_lt hA

theorem bst_eq_spec (rs : List Route) (A : Nat) (hv : ∀ r ∈ rs, ValidRoute r)
    (hA : A < 2 ^ 32) (hnc : NoCollide rs) :
    (bstLookup rs A).1 = specLookup rs A := by
  rcases max_matcher A rs with hnone | ⟨r0, hr0, hm0, hmax⟩
  · rw [bst_lookup_no_match rs A hnone]
    unfold specLookup
    rw [specLookupFull_no_match A rs ?hno]
    · rfl
    case hno =>
      intro r hr hc
      have hmm := (rMatches_iff_shift r A (hv r hr) hA).mpr hc
      rw [hnone r hr] at hmm
      cases hmm
  · have hstrict := strict_max_of_noCollide A rs r0 hnc hr0 hm0 hmax
    rw [bst_lookup_unique_max rs A r0 hr0 hm0 hstrict]
    unfold specLookup
    rw [spec_unique_max A rs r0 hr0 ((rMatches_iff_shift r0 A (hv r0 hr0) hA).mp hm0) ?hmx]
    · rfl
    case hmx =>
      intro r hr hc hne
      have hmm := (rMatches_iff_shift r A (hv r hr) hA).mpr hc
      have := hstrict r hr hmm hne
      omega

theorem bst_perm_lookup (rs1 rs2 : List Route) (hperm : rs1.Perm rs2) (hnc : NoCollide rs1)
    (A : Nat) : bstLookup rs1 A = bstLookup rs2 A := by
  rcases max_matcher A rs1 with hnone | ⟨r0, hr0, hm0, hmax⟩
  · rw [bst_lookup_no_match rs1 A hnone,
      bst_lookup_no_match rs2 A (fun r hr => hnone r (hperm.mem_iff.mpr hr))]
  · have hstrict := strict_max_of_noCollide A rs1 r0 hnc hr0 hm0 hmax
    rw [bst_lookup_unique_max rs1 A r0 hr0 hm0 hstrict,
      bst_lookup_unique_max rs2 A r0 (hperm.mem_iff.mp hr0) hm0
        (fun r hr hm hne => hstrict r (hperm.mem_iff.mpr hr) hm hne)]

theorem spec_default (rs : List Route) (p : Nat) (H : String) (A : Nat)
    (hA : A < 2 ^ 32) (hp : p < 2 ^ 32)
    (hnomatch : ∀ r ∈ rs, 1 ≤ r.len → ¬ A >>> (32 - r.len) = r.pfx >>> (32 - r.len)) :
    specLookup (rs ++ [⟨p, 0, H⟩]) A = some H := by
  unfold specLookup
  rw [specLookupFull_append]
  have hc : A >>> (32 - ((⟨p, 0, H⟩ : Route)).len) =
      ((⟨p, 0, H⟩ : Route)).pfx >>> (32 - ((⟨p, 0, H⟩ : Route)).len) := by
    dsimp only
    rw [Nat.sub_zero, shiftRight32_eq_zero A hA, shiftRight32_eq_zero p hp]
  unfold specStep
  rw [if_pos hc]
  cases hacc : specLookupFull rs A with
  | none => rfl
  | some pz =>
    cases pz with
    | mk bl bh =>
      rcases specFold_provenance A rs none bl bh hacc with h1 | ⟨r, hr, hcond, hlen, hhop⟩
      · cases h1
      · have hl0 : r.len = 0 := by
          by_contra hne
          exact hnomatch r hr (by omega) hcond
        dsimp only
        rw [if_pos (by omega)]
        rfl

theorem lookupSteps_le (bs : List Bool) : ∀ t : TrieNode, t.lookupSteps bs ≤ bs.length := by
  induction bs with
  | nil =>
    intro t
    simp [TrieNode.lookupSteps]
  | cons b bs ih =>
    intro t
    unfold TrieNode.lookupSteps
    cases hc : (if b then t.right else t.left) with
    | none => simp
    | some c =>
      simp only [List.length_cons]
      exact Nat.add_le_add_right (ih c) 1

theorem addrBits_length (A : Nat) : (addrBits A).length = 32 := by
  simp [addrBits, pathBits]

theorem lookup_as_deepest (t : TrieNode) (A : Nat) :
    t.lookup A = (match deepestFull t.find (addrBits A) with
      | some (_, g) => some g
      | none => none) := by
  unfold TrieNode.lookup
  rw [lookupBits_eq_deepest]

theorem lookup_insert_frame (t : TrieNode) (p l : Nat) (hop : String) (A : Nat)
    (hp : p < 2 ^ 32) (hA : A < 2 ^ 32) (hl : l ≤ 32)
    (hne : ¬ A >>> (32 - l) = p >>> (32 - l)) :
    (t.insert p l hop).lookup A = t.lookup A := by
  rw [lookup_as_deepest, lookup_as_deepest]
  have hf : (t.insert p l hop).find = fun q => if q = pathBits p l then some hop else t.find q := by
    funext q
    exact find_insertBits (pathBits p l) t hop q
  rw [hf, deepestFull_update (addrBits A) t.find (pathBits p l) hop]
  have hpre : isPreB (pathBits p l) (addrBits A) = false := by
    rw [← Bool.not_eq_true]
    intro hcon
    exact hne ((isPreB_pathBits_iff A p l hA hp hl).mp hcon)
  rw [hpre]
  simp

theorem insert_len_zero_root (t : TrieNode) (p : Nat) (H : String) :
    (t.insert p 0 H).next_hop = some H ∧ (t.insert p 0 H).left = t.left ∧
      (t.insert p 0 H).right = t.right := by
  cases t with
  | mk l r h =>
    simp [TrieNode.insert, pathBits, TrieNode.insertBits, TrieNode.next_hop,
      TrieNode.left, TrieNode.right]

theorem insertBits_twice (path : List Bool) : ∀ (t : TrieNode) (h1 h2 : String),
    (t.insertBits path h1).insertBits path h2 = t.insertBits path h2 := by
  induction path with
  | nil =>
    intro t h1 h2
    cases t with
    | mk l r h => simp [TrieNode.insertBits]
  | cons b bs ih =>
    intro t h1 h2
    cases t with
    | mk l r h =>
      cases b <;> simp [TrieNode.insertBits, ih]

/-! Claim theorems. -/

/-- C1: for every finite route list (32-bit values, lengths 0..=32, bits
below the significant ones arbitrary) inserted in any order into a fresh
trie, and every 32-bit address, TrieNode::lookup returns the next hop of
the route with the greatest length whose top bits agree with the address
(the last-inserted one among equals) and none when no route matches —
i.e. the reference answer specLookup. -/
theorem c1_trie_longest_match (rs : List Route) (A : Nat)
    (hv : ∀ r ∈ rs, ValidRoute r) (hA : A < 2 ^ 32) :
    TrieNode.lookup (trieOfRoutes rs) A = specLookup rs A :=
  trie_lookup_eq_specLookup rs A hv hA

theorem c1_witness :
    TrieNode.lookup (trieOfRoutes
        [⟨3232235520, 16, "Router_A"⟩, ⟨3232235776, 24, "Router_B"⟩,
          ⟨3232235904, 25, "Router_C"⟩]) 3232235781 =
      specLookup
        [⟨3232235520, 16, "Router_A"⟩, ⟨3232235776, 24, "Router_B"⟩,
          ⟨3232235904, 25, "Router_C"⟩] 3232235781 :=
  c1_trie_longest_match _ 3232235781 (by decide) (by decide)

/-- C2 counterexample: two routes with distinct raw values (free of the
duplicate-raw-value quirk of section 9) still collide on their single
significant bit; the trie answers with the later insert, the BST with the
earlier one, so the two structures disagree. -/
theorem c2_counterexample :
    ([⟨0, 1, "a"⟩, ⟨1, 1, "b"⟩] : List Route).Pairwise (fun r s => r.pfx ≠ s.pfx) ∧
    TrieNode.lookup (trieOfRoutes [⟨0, 1, "a"⟩, ⟨1, 1, "b"⟩]) 0 ≠
      (bstLookup [⟨0, 1, "a"⟩, ⟨1, 1, "b"⟩] 0).1 := by
  constructor
  · decide
  · decide

/-- C2 amended: if additionally no two routes share both their length and
their significant top bits (NoCollide), the trie and the BST agree on
every address. -/
theorem c2_amended_structure_agreement (rs : List Route) (A : Nat)
    (hv : ∀ r ∈ rs, ValidRoute r) (hA : A < 2 ^ 32) (hnc : NoCollide rs) :
    TrieNode.lookup (trieOfRoutes rs) A = (bstLookup rs A).1 := by
  rw [trie_lookup_eq_specLookup rs A hv hA, bst_eq_spec rs A hv hA hnc]

theorem c2_witness :
    TrieNode.lookup (trieOfRoutes
        [⟨3232235520, 16, "Router_A"⟩, ⟨3232235776, 24, "Router_B"⟩,
          ⟨3232235904, 25, "Router_C"⟩]) 3232235976 =
      (bstLookup
        [⟨3232235520, 16, "Router_A"⟩, ⟨3232235776, 24, "Router_B"⟩,
          ⟨3232235904, 25, "Router_C"⟩] 3232235976).1 :=
  c2_amended_structure_agreement _ 3232235976 (by decide) (by decide) (by decide)

/-- C3 counterexample: reinserting the same (value, length) with a new
next hop into the BST does not make lookups return the most recent hop;
the matching query still answers with the first insert. -/
theorem c3_counterexample :
    rMatches ⟨0, 1, "b"⟩ 0 = true ∧
    (bstLookup [⟨0, 1, "a"⟩, ⟨0, 1, "b"⟩] 0).1 = some "a" ∧
    (some "a" : Option String) ≠ some "b" := by
  refine ⟨by decide, by decide, by decide⟩

/-- C3 amended: in the trie a duplicate (value, length) insert overwrites,
so two inserts collapse to the last one; in the BST the reinsertion adds a
second node and a lookup selecting this route keeps the FIRST insert's
next hop. -/
theorem c3_amended_reinsertion :
    (∀ (t : TrieNode) (p l : Nat) (h1 h2 : String),
      (t.insert p l h1).insert p l h2 = t.insert p l h2) ∧
    (∀ (p l : Nat) (h1 h2 : String) (A : Nat), rMatches ⟨p, l, h1⟩ A = true →
      (bstLookup [⟨p, l, h1⟩, ⟨p, l, h2⟩] A).1 = some h1) := by
  constructor
  · intro t p l h1 h2
    unfold TrieNode.insert
    exact insertBits_twice (pathBits p l) t h1 h2
  · intro p l h1 h2 A hm
    have htree : bstOfRoutes [⟨p, l, h1⟩, ⟨p, l, h2⟩] =
        BSTNode.mk p l h1 .nil (BSTNode.mk p l h2 .nil .nil) := by
      simp [bstOfRoutes, BSTNode.insert, lt_irrefl]
    unfold bstLookup
    rw [htree, lookup_eq_foldl]
    have hpre : (BSTNode.mk p l h1 .nil (BSTNode.mk p l h2 .nil .nil)).preorder =
        [⟨p, l, h1⟩, ⟨p, l, h2⟩] := by
      simp [BSTNode.preorder]
    rw [hpre]
    simp only [List.foldl_cons, List.foldl_nil]
    have h1s : updBest A (none, -1) ⟨p, l, h1⟩ = (some h1, (l : Int)) := by
      unfold updBest
      rw [if_pos ⟨hm, by show (-1 : Int) < (l : Int); omega⟩]
    rw [h1s]
    have h2s : updBest A (some h1, (l : Int)) ⟨p, l, h2⟩ = (some h1, (l : Int)) := by
      unfold updBest
      rw [if_neg (fun hcc => lt_irrefl _ hcc.2)]
    rw [h2s]

theorem c3_witness :
    ((TrieNode.new.insert 0 1 "a").insert 0 1 "b" = TrieNode.new.insert 0 1 "b") ∧
    (bstLookup [⟨0, 1, "a"⟩, ⟨0, 1, "b"⟩] 0).1 = some "a" :=
  ⟨c3_amended_reinsertion.1 TrieNode.new 0 1 "a" "b",
   c3_amended_reinsertion.2 0 1 "a" "b" 0 (by decide)⟩

/-- C4 counterexample: no implementation validates the length.
BSTNode::insert accepts a length of 33 without signalling anything and
extends the stored route list, so the structure state is not left
unchanged. -/
theorem c4_counterexample :
    (BSTNode.mk 0 8 "a" .nil .nil).preorder = [⟨0, 8, "a"⟩] ∧
    (BSTNode.insert (BSTNode.mk 0 8 "a" .nil .nil) 1 33 "b").preorder ≠ [⟨0, 8, "a"⟩] := by
  constructor
  · decide
  · decide

/-- C4 amended: an out-of-range length makes TrieNode::insert panic on the
debug-build subtraction 32 - prefix_len before any mutation (the trie is
unchanged, but this is a panic, not a recoverable invalid-argument
signal); BSTNode::insert performs no validation and stores the route,
changing the stored state; BSTNode::matches on such a stored node panics
on the same subtraction. -/
theorem c4_amended_out_of_range (p l : Nat) (hl : 32 < l) :
    (∀ (t : TrieNode) (hop : String), t.insertChecked p l hop = none) ∧
    (∀ (n : BSTNode) (hop : String),
      (n.insert p l hop).preorder.Perm (⟨p, l, hop⟩ :: n.preorder)) ∧
    (∀ (ip q : Nat) (hop : String) (lt rt : BSTNode),
      (BSTNode.mk q l hop lt rt).matchesChecked ip = none) := by
  refine ⟨?_, ?_, ?_⟩
  · intro t hop
    unfold TrieNode.insertChecked sub32Checked
    rw [if_neg (by omega)]
  · intro n hop
    exact preorder_insert_perm n p l hop
  · intro ip q hop lt rt
    unfold BSTNode.matchesChecked sub32Checked
    dsimp only
    rw [if_neg (show ¬ l = 0 by omega), if_neg (show ¬ l ≤ 32 by omega)]

theorem c4_witness :
    TrieNode.insertChecked TrieNode.new 1 33 "b" = none ∧
    (BSTNode.insert (BSTNode.mk 0 8 "a" .nil .nil) 1 33 "b").preorder.Perm
      (⟨1, 33, "b"⟩ :: (BSTNode.mk 0 8 "a" .nil .nil).preorder) ∧
    (BSTNode.mk 5 33 "x" .nil .nil).matchesChecked 0 = none :=
  ⟨(c4_amended_out_of_range 1 33 (by decide)).1 TrieNode.new "b",
   (c4_amended_out_of_range 1 33 (by decide)).2.1 (BSTNode.mk 0 8 "a" .nil .nil) "b",
   (c4_amended_out_of_range 5 33 (by decide)).2.2 0 5 "x" .nil .nil⟩

/-- C5: inserting a zero-length route places its hop on the root node
itself, and an address with no matching stored route of length at least
one afterwards resolves to that hop instead of none. -/
theorem c5_default_route (rs : List Route) (p : Nat) (H : String) (A : Nat)
    (hv : ∀ r ∈ rs, ValidRoute r) (hA : A < 2 ^ 32) (hp : p < 2 ^ 32)
    (hnomatch : ∀ r ∈ rs, 1 ≤ r.len → ¬ A >>> (32 - r.len) = r.pfx >>> (32 - r.len)) :
    (trieOfRoutes (rs ++ [⟨p, 0, H⟩])).next_hop = some H ∧
    TrieNode.lookup (trieOfRoutes (rs ++ [⟨p, 0, H⟩])) A = some H := by
  constructor
  · rw [trieOfRoutes_append]
    exact (insert_len_zero_root (trieOfRoutes rs) p H).1
  · have hv2 : ∀ r ∈ rs ++ [⟨p, 0, H⟩], ValidRoute r := by
      intro r hr
      rcases List.mem_append.mp hr with hm | hm
      · exact hv r hm
      · have he := List.mem_singleton.mp hm
        rw [he]
        exact ⟨hp, Nat.zero_le 32⟩
    exact (trie_lookup_eq_specLookup (rs ++ [⟨p, 0, H⟩]) A hv2 hA).trans
      (spec_default rs p H A hA hp hnomatch)

theorem c5_witness :
    (trieOfRoutes ([⟨2147483648, 1, "x"⟩] ++ [⟨5, 0, "H"⟩])).next_hop = some "H" ∧
    TrieNode.lookup (trieOfRoutes ([⟨2147483648, 1, "x"⟩] ++ [⟨5, 0, "H"⟩])) 0 = some "H" :=
  c5_default_route [⟨2147483648, 1, "x"⟩] 5 "H" 0 (by decide) (by decide) (by decide) (by decide)

/-- C6: on any trie, however many routes it holds, and any address, the
lookup loop performs at most 32 child descents, hence visits at most 33
nodes. -/
theorem c6_depth_bound (t : TrieNode) (A : Nat) :
    t.lookupSteps (addrBits A) ≤ 32 ∧ t.lookupSteps (addrBits A) + 1 ≤ 33 := by
  have h := lookupSteps_le (addrBits A) t
  rw [addrBits_length] at h
  exact ⟨h, by omega⟩

/-- C7 counterexample: two permutations of a route list with pairwise
distinct raw values whose BSTs answer the same query differently, because
both routes match with equal length and the pre-order-first node wins. -/
theorem c7_counterexample :
    ([⟨0, 1, "a"⟩, ⟨1, 1, "b"⟩] : List Route).Pairwise (fun r s => r.pfx ≠ s.pfx) ∧
    ([⟨0, 1, "a"⟩, ⟨1, 1, "b"⟩] : List Route).Perm [⟨1, 1, "b"⟩, ⟨0, 1, "a"⟩] ∧
    bstLookup [⟨0, 1, "a"⟩, ⟨1, 1, "b"⟩] 0 ≠ bstLookup [⟨1, 1, "b"⟩, ⟨0, 1, "a"⟩] 0 :=
  ⟨by decide, List.Perm.swap _ _ _, by decide⟩

/-- C7 amended: under the stronger hypothesis that no two routes share
both length and significant bits (NoCollide), every permutation of the
route list yields identical BST lookup results (best hop and length) for
every address. -/
theorem c7_amended_perm_invariance (rs1 rs2 : List Route) (hperm : rs1.Perm rs2)
    (hnc : NoCollide rs1) (A : Nat) : bstLookup rs1 A = bstLookup rs2 A :=
  bst_perm_lookup rs1 rs2 hperm hnc A

theorem c7_witness :
    bstLookup [⟨0, 1, "a"⟩, ⟨2147483648, 1, "b"⟩] 0 =
      bstLookup [⟨2147483648, 1, "b"⟩, ⟨0, 1, "a"⟩] 0 :=
  c7_amended_perm_invariance _ _ (List.Perm.swap _ _ _) (by decide) 0

/-- C8: an empty tree, or one none of whose stored routes matches the
queried address, leaves the accumulator at exactly (none, -1); a stored
matching route whose label is the empty string yields some "", which is
distinct from the none miss. -/
theorem c8_no_match (A : Nat) :
    bstLookup [] A = (none, -1) ∧
    (∀ t : BSTNode, (∀ r ∈ t.preorder, rMatches r A = false) →
      t.lookup A (none, -1) = (none, -1)) ∧
    ((BSTNode.mk 0 0 "" .nil .nil).lookup A (none, -1) = (some "", 0) ∧
      (some "" : Option String) ≠ none) := by
  refine ⟨rfl, ?_, ?_, by decide⟩
  · intro t hnm
    rw [lookup_eq_foldl]
    refine foldl_updBest_keep A _ _ (fun r hr hm => ?_)
    rw [hnm r hr] at hm
    cases hm
  · have hm : rMatches (⟨0, 0, ""⟩ : Route) A = true := by
      simp [rMatches, mask32]
    rw [lookup_eq_foldl]
    have hpre2 : (BSTNode.mk 0 0 "" .nil .nil).preorder = [⟨0, 0, ""⟩] := by
      simp [BSTNode.preorder]
    rw [hpre2]
    simp only [List.foldl_cons, List.foldl_nil]
    unfold updBest
    rw [if_pos ⟨hm, by show (-1 : Int) < ((0 : Nat) : Int); omega⟩]
    rfl

theorem c8_witness :
    bstLookup [] 0 = (none, -1) ∧
    (BSTNode.mk 2147483648 1 "x" .nil .nil).lookup 0 (none, -1) = (none, -1) :=
  ⟨(c8_no_match 0).1, (c8_no_match 0).2.1 _ (by decide)⟩

/-- C9: because best is updated only on a strictly greater length, the
first node in pre-order that attains the greatest matching length supplies
the result; in particular appending a reinsertion of an already stored
(value, length) pair with a new hop changes no lookup result. -/
theorem c9_tie_break_preorder :
    (∀ (t : BSTNode) (A : Nat) (xs : List Route) (r0 : Route) (ys : List Route),
      t.preorder = xs ++ r0 :: ys → rMatches r0 A = true →
      (∀ r ∈ xs, rMatches r A = true → (r.len : Int) < (r0.len : Int)) →
      (∀ r ∈ ys, rMatches r A = true → (r.len : Int) ≤ (r0.len : Int)) →
      t.lookup A (none, -1) = (some r0.hop, (r0.len : Int))) ∧
    (∀ (rs : List Route) (p l : Nat) (h1 h2 : String) (A : Nat),
      (⟨p, l, h1⟩ : Route) ∈ rs →
      bstLookup (rs ++ [⟨p, l, h2⟩]) A = bstLookup rs A) :=
  ⟨fun t A xs r0 ys hs hm hxs hys => bst_lookup_first_max t A xs r0 ys hs hm hxs hys,
   fun rs p l h1 h2 A hmem => bst_reinsert_lookup rs p l h1 h2 A hmem⟩

theorem c9_witness :
    (bstOfRoutes [⟨0, 1, "a"⟩, ⟨1, 1, "b"⟩]).lookup 0 (none, -1) =
      (some "a", ((1 : Nat) : Int)) ∧
    bstLookup ([⟨0, 1, "a"⟩] ++ [⟨0, 1, "b"⟩]) 0 = bstLookup [⟨0, 1, "a"⟩] 0 :=
  ⟨c9_tie_break_preorder.1 _ 0 [] ⟨0, 1, "a"⟩ [⟨1, 1, "b"⟩]
      (by decide) (by decide) (by decide) (by decide),
   c9_tie_break_preorder.2 [⟨0, 1, "a"⟩] 0 1 "a" "b" 0 (by decide)⟩

/-- C10: inserting a route whose significant top bits differ from an
address changes neither that address's lookup result nor the hop found at
any bit path other than the inserted one. -/
theorem c10_insert_frame (t : TrieNode) (p l : Nat) (hop : String) (A : Nat)
    (hp : p < 2 ^ 32) (hA : A < 2 ^ 32) (hl : l ≤ 32)
    (hne : ¬ A >>> (32 - l) = p >>> (32 - l)) :
    (t.insert p l hop).lookup A = t.lookup A ∧
    (∀ q, q ≠ pathBits p l → (t.insert p l hop).find q = t.find q) := by
  constructor
  · exact lookup_insert_frame t p l hop A hp hA hl hne
  · intro q hq
    unfold TrieNode.insert
    rw [find_insertBits]
    rw [if_neg hq]

theorem c10_witness :
    (TrieNode.new.insert 0 1 "x").lookup 2147483648 = TrieNode.new.lookup 2147483648 :=
  (c10_insert_frame TrieNode.new 0 1 "x" 2147483648
    (by decide) (by decide) (by decide) (by decide)).1
